import Mathlib

/-!
Verification of the Zn-clock-model Metropolis simulation (zn_model_code.py).

The Python class ZnModel is shallowly embedded as the structure ZnState.
Machine floats are modelled as exact rationals; the lattice (an L x L numpy
integer array, always indexed inside bounds) is modelled as a total function
on integer pairs, read and written only at indices in [0, L) x [0, L).
Randomness consumed by a single Metropolis trial is passed in explicitly as a
Trial record: the site draw (x, y), the proposal offset draw dlt, and the
Boolean outcome rejBit of the comparison rand() >= exp(-dE / T) that the code
evaluates only when dE > 0.  A full metropolis_step pass is the left fold of
metropolis_trial over a list of such records.
-/

namespace ZnModel

/-- Functional update of the lattice at one cell, modelling the numpy array
assignment lattice[x, y] = v. -/
def setCell (f : ℤ → ℤ → ℤ) (x y v : ℤ) : ℤ → ℤ → ℤ :=
  fun a b => if a = x ∧ b = y then v else f a b

/-- The simulation state: the fields of the ZnModel object.  L, n, T, H are
lattice_size, n_states, temperature, external_field; energy and magnetization
are the incrementally maintained running scalars. -/
structure ZnState where
  L : ℕ
  n : ℤ
  T : ℚ
  H : ℚ
  lattice : ℤ → ℤ → ℤ
  energy : ℚ
  magnetization : ℤ

/-- The four toroidal neighbor index pairs read by calculate_energy, in source
order: (x+1) % L, (x-1) % L on the first axis, then (y+1) % L, (y-1) % L on
the second (Python % on ints and Int.emod agree for positive modulus). -/
def nbrList (L : ℕ) (x y : ℤ) : List (ℤ × ℤ) :=
  [((x + 1) % L, y), ((x - 1) % L, y), (x, (y + 1) % L), (x, (y - 1) % L)]

/-- ZnModel.calculate_energy: interaction of site (x, y) with its four
toroidal neighbors (-1 per same-state neighbor, via minus the sum of
indicator values) plus the field term -H * (1 if spin == 1 else -1). -/
def calculate_energy (s : ZnState) (x y : ℤ) : ℚ :=
  let spin := s.lattice x y
  let neighbors := (nbrList s.L x y).map fun p => s.lattice p.1 p.2
  let interaction_energy : ℚ := -((neighbors.map fun nb => if spin = nb then (1 : ℚ) else 0).sum)
  let field_energy : ℚ := -s.H * (if spin = 1 then 1 else -1)
  interaction_energy + field_energy

/-- ZnModel.calculate_total_energy: the double loop over range(L) summing
calculate_energy, divided by 2 (the source comment says: avoid double
counting). -/
def calculate_total_energy (s : ZnState) : ℚ :=
  (∑ x in Finset.range s.L, ∑ y in Finset.range s.L, calculate_energy s x y) / 2

/-- ZnModel.calculate_magnetization: the sum over all cells of
1 if spin == 1 else -1. -/
def calculate_magnetization (s : ZnState) : ℤ :=
  ∑ x in Finset.range s.L, ∑ y in Finset.range s.L, (if s.lattice x y = 1 then 1 else -1)

/-- The randomness consumed by one trial of the metropolis_step loop:
the site draws x, y from randint(0, L), the proposal offset dlt from
randint(1, n), and rejBit, the Boolean value of the comparison
np.random.rand() >= np.exp(-delta_energy / T) (evaluated by the code only
when delta_energy > 0, and ignored by the trial otherwise). -/
structure Trial where
  x : ℤ
  y : ℤ
  dlt : ℤ
  rejBit : Bool

/-- The value old_spin = lattice[x, y] read by a trial. -/
def old_spin (s : ZnState) (x y : ℤ) : ℤ := s.lattice x y

/-- The proposal new_spin = (lattice[x, y] + dlt) % n of a trial. -/
def new_spin (s : ZnState) (x y dlt : ℤ) : ℤ := (s.lattice x y + dlt) % s.n

/-- The state after tentatively writing new_spin into the lattice. -/
def proposedState (s : ZnState) (x y dlt : ℤ) : ZnState :=
  { s with lattice := setCell s.lattice x y (new_spin s x y dlt) }

/-- delta_energy = calculate_energy after the tentative write minus
calculate_energy before it. -/
def delta_energy (s : ZnState) (x y dlt : ℤ) : ℚ :=
  calculate_energy (proposedState s x y dlt) x y - calculate_energy s x y

/-- The accepted-move result: the tentative write is kept and the running
scalars receive their incremental updates (the else branch of the source). -/
def acceptResult (s : ZnState) (x y dlt : ℤ) : ZnState :=
  { proposedState s x y dlt with
    energy := s.energy + delta_energy s x y dlt
    magnetization := s.magnetization +
      ((if new_spin s x y dlt = 1 then 1 else -1) - (if old_spin s x y = 1 then 1 else -1)) }

/-- The rejected-move result: the lattice cell is written back to old_spin
and the running scalars are left untouched (the then branch of the source). -/
def rejectResult (s : ZnState) (x y dlt : ℤ) : ZnState :=
  { proposedState s x y dlt with
    lattice := setCell (proposedState s x y dlt).lattice x y (old_spin s x y) }

/-- One trial of the metropolis_step loop: revert exactly when
delta_energy > 0 and the acceptance comparison came out as a rejection. -/
def metropolis_trial (s : ZnState) (t : Trial) : ZnState :=
  if 0 < delta_energy s t.x t.y t.dlt ∧ t.rejBit = true then
    rejectResult s t.x t.y t.dlt
  else
    acceptResult s t.x t.y t.dlt

/-- ZnModel.metropolis_step: one full pass, a fold of trials over the given
randomness list (the source runs exactly L * L loop iterations). -/
def metropolis_step (s : ZnState) (ts : List Trial) : ZnState :=
  ts.foldl metropolis_trial s

/-- The successfully constructed ZnModel object: the given random lattice
contents, with energy and magnetization computed by full recomputation,
exactly as the last two lines of ZnModel.init do. -/
def mkInitial (L : ℕ) (n : ℤ) (T H : ℚ) (r : ℤ → ℤ → ℤ) : ZnState :=
  let s0 : ZnState := ⟨L, n, T, H, r, 0, 0⟩
  { s0 with energy := calculate_total_energy s0
            magnetization := calculate_magnetization s0 }

/-- ZnModel.init as called with integer arguments.  The constructor body
performs no explicit validation; the only failure comes from the call
np.random.randint(0, n, (L, L)), which raises ValueError exactly when
n <= 0 (empty draw range low >= high) or L < 0 (negative dimensions);
numpy semantics, the constructor itself checks nothing. -/
def znModel_init (L n : ℤ) (T H : ℚ) (r : ℤ → ℤ → ℤ) : Except String ZnState :=
  if n ≤ 0 ∨ L < 0 then Except.error "ValueError" else Except.ok (mkInitial L.toNat n T H r)

/-- The embedding of array indices into the integers used to index lattice
reads and writes. -/
def natToInt : ℕ ↪ ℤ := ⟨fun m => (m : ℤ), fun _ _ h => Int.natCast_inj.mp h⟩

/-- The set of in-bounds index pairs of the L x L lattice. -/
def grid (L : ℕ) : Finset (ℤ × ℤ) :=
  (Finset.range L ×ˢ Finset.range L).map (natToInt.prodMap natToInt)

/-- The indicator of two cells holding the same state, as a rational. -/
def eq1 (u v : ℤ) : ℚ := if u = v then 1 else 0

/-- The four neighbor directions of the toroidal lattice, indexed to match
the order of nbrList. -/
def nbr (L : ℕ) (p : ℤ × ℤ) (d : Fin 4) : ℤ × ℤ :=
  match d with
  | 0 => ((p.1 + 1) % L, p.2)
  | 1 => ((p.1 - 1) % L, p.2)
  | 2 => (p.1, (p.2 + 1) % L)
  | 3 => (p.1, (p.2 - 1) % L)

/-- The opposite of each neighbor direction. -/
def dinv : Fin 4 → Fin 4
  | 0 => 1
  | 1 => 0
  | 2 => 3
  | 3 => 2

/-- The field contribution of one cell: -H * (1 if spin == 1 else -1). -/
def fld (H : ℚ) (v : ℤ) : ℚ := -H * (if v = 1 then 1 else -1)

/-- The number (as a rational) of the four neighbors of p agreeing with p. -/
def nbrAgree (L : ℕ) (f : ℤ → ℤ → ℤ) (p : ℤ × ℤ) : ℚ :=
  ∑ d : Fin 4, eq1 (f p.1 p.2) (f (nbr L p d).1 (nbr L p d).2)

/-- One directed-bond agreement indicator. -/
def bondTerm (L : ℕ) (f : ℤ → ℤ → ℤ) (pd : (ℤ × ℤ) × Fin 4) : ℚ :=
  eq1 (f pd.1.1 pd.1.2) (f (nbr L pd.1 pd.2).1 (nbr L pd.1 pd.2).2)

/-- The total directed-bond agreement count of the lattice. -/
def bondSum (L : ℕ) (f : ℤ → ℤ → ℤ) : ℚ :=
  ∑ pd in grid L ×ˢ (Finset.univ : Finset (Fin 4)), bondTerm L f pd

/-- The lattice of the concrete scenario of the spec: [[0, 1], [1, 0]]. -/
def checkerboard : ℤ → ℤ → ℤ := fun a b =>
  if a = 0 ∧ b = 0 then 0
  else if a = 0 ∧ b = 1 then 1
  else if a = 1 ∧ b = 0 then 1
  else 0

/-- The concrete scenario state: L = 2, n = 2, H = 0, checkerboard lattice. -/
def sCheck : ZnState := mkInitial 2 2 1 0 checkerboard

/-- The all-zero initial lattice used in concrete scenarios. -/
def zeroLat : ℤ → ℤ → ℤ := fun _ _ => 0

/-- A valid configuration with a nonzero field: L = 1, n = 2, T = 1, H = 1. -/
def sDrift : ZnState := mkInitial 1 2 1 1 zeroLat

/-- A valid configuration with zero field: L = 1, n = 2, T = 1, H = 0. -/
def sCons : ZnState := mkInitial 1 2 1 0 zeroLat

/-- The single trial of a full L = 1 pass: site (0, 0), offset 1. -/
def driftTrial : Trial := ⟨0, 0, 1, false⟩

/-- A valid L = 2, n = 2, H = 0 configuration with all-zero lattice, in which
the proposal at (0, 0) costs energy (delta_energy = 4). -/
def sRej : ZnState := mkInitial 2 2 1 0 zeroLat

/-- A trial at site (0, 0), offset 1, whose acceptance draw rejected. -/
def rejTrial : Trial := ⟨0, 0, 1, true⟩

/-- A valid L = 3, n = 2, H = 0 configuration with all-zero lattice. -/
def sThree : ZnState := mkInitial 3 2 1 0 zeroLat

/-- All in-bounds cells hold a state in [0, n). -/
def cellsInRange (s : ZnState) : Prop :=
  ∀ p ∈ grid s.L, 0 ≤ s.lattice p.1 p.2 ∧ s.lattice p.1 p.2 < s.n

/-- The number of cells holding state 1. -/
def onesCount (s : ZnState) : ℕ :=
  ((grid s.L).filter (fun p => s.lattice p.1 p.2 = 1)).card

/-- The observable-tracking lists of the driving script: energy_data,
magnetization_data, specific_heat_data, susceptibility_data. -/
structure ObsData where
  energy_data : List ℚ
  magnetization_data : List ℚ
  specific_heat_data : List ℚ
  susceptibility_data : List ℚ

/-- The four empty lists the script starts with. -/
def emptyObs : ObsData := ⟨[], [], [], []⟩

/-- np.var: the population variance, the mean of squared deviations from the
mean. -/
def npVar (l : List ℚ) : ℚ :=
  (l.map fun x => (x - l.sum / l.length) ^ 2).sum / l.length

/-- The observable bookkeeping of the update function: append energy and
magnetization, and after more than one pass also append
np.var(energy_data) / (L^2 * T^2) and np.var(magnetization_data) / (L^2 * T). -/
def obsUpdate (L : ℕ) (T E : ℚ) (M : ℤ) (o : ObsData) : ObsData :=
  let ed := o.energy_data ++ [E]
  let md := o.magnetization_data ++ [(M : ℚ)]
  if 1 < ed.length then
    { energy_data := ed
      magnetization_data := md
      specific_heat_data := o.specific_heat_data ++ [npVar ed / ((L : ℚ) ^ 2 * T ^ 2)]
      susceptibility_data := o.susceptibility_data ++ [npVar md / ((L : ℚ) ^ 2 * T)] }
  else
    { o with energy_data := ed, magnetization_data := md }

/-- One animation frame: the temperature set for the pass, and the pass
randomness. -/
structure FrameInput where
  T : ℚ
  trials : List Trial

/-- One update(frame) call of the script: set the temperature, run one
metropolis_step pass, then run the observable bookkeeping with the model
fields lattice_size, T, energy, magnetization. -/
def runFrame (so : ZnState × ObsData) (fi : FrameInput) : ZnState × ObsData :=
  let s1 := metropolis_step { so.1 with T := fi.T } fi.trials
  (s1, obsUpdate s1.L s1.T s1.energy s1.magnetization so.2)

/-- The animation loop: one update call per frame. -/
def runFrames (so : ZnState × ObsData) (fis : List FrameInput) : ZnState × ObsData :=
  fis.foldl runFrame so

/-- A frame at temperature 1 with an empty trial list. -/
def obsFrame : FrameInput := ⟨1, []⟩

section Projections

variable (L : ℕ) (n : ℤ) (T H : ℚ) (r : ℤ → ℤ → ℤ) (s : ZnState) (x y dlt : ℤ) (t : Trial)

@[simp] lemma mkInitial_L : (mkInitial L n T H r).L = L := rfl

@[simp] lemma mkInitial_n : (mkInitial L n T H r).n = n := rfl

@[simp] lemma mkInitial_T : (mkInitial L n T H r).T = T := rfl

@[simp] lemma mkInitial_H : (mkInitial L n T H r).H = H := rfl

@[simp] lemma mkInitial_lattice : (mkInitial L n T H r).lattice = r := rfl

lemma mkInitial_energy :
    (mkInitial L n T H r).energy = calculate_total_energy (mkInitial L n T H r) := rfl

lemma mkInitial_magnetization :
    (mkInitial L n T H r).magnetization = calculate_magnetization (mkInitial L n T H r) := rfl

@[simp] lemma proposedState_L : (proposedState s x y dlt).L = s.L := rfl

@[simp] lemma proposedState_n : (proposedState s x y dlt).n = s.n := rfl

@[simp] lemma proposedState_T : (proposedState s x y dlt).T = s.T := rfl

@[simp] lemma proposedState_H : (proposedState s x y dlt).H = s.H := rfl

@[simp] lemma proposedState_energy : (proposedState s x y dlt).energy = s.energy := rfl

@[simp] lemma proposedState_magnetization :
    (proposedState s x y dlt).magnetization = s.magnetization := rfl

@[simp] lemma proposedState_lattice :
    (proposedState s x y dlt).lattice = setCell s.lattice x y (new_spin s x y dlt) := rfl

@[simp] lemma acceptResult_L : (acceptResult s x y dlt).L = s.L := rfl

@[simp] lemma acceptResult_n : (acceptResult s x y dlt).n = s.n := rfl

@[simp] lemma acceptResult_T : (acceptResult s x y dlt).T = s.T := rfl

@[simp] lemma acceptResult_H : (acceptResult s x y dlt).H = s.H := rfl

@[simp] lemma acceptResult_lattice :
    (acceptResult s x y dlt).lattice = setCell s.lattice x y (new_spin s x y dlt) := rfl

@[simp] lemma acceptResult_energy :
    (acceptResult s x y dlt).energy = s.energy + delta_energy s x y dlt := rfl

@[simp] lemma acceptResult_magnetization :
    (acceptResult s x y dlt).magnetization = s.magnetization +
      ((if new_spin s x y dlt = 1 then 1 else -1) - (if old_spin s x y = 1 then 1 else -1)) := rfl

@[simp] lemma rejectResult_L : (rejectResult s x y dlt).L = s.L := rfl

@[simp] lemma rejectResult_n : (rejectResult s x y dlt).n = s.n := rfl

@[simp] lemma rejectResult_T : (rejectResult s x y dlt).T = s.T := rfl

@[simp] lemma rejectResult_H : (rejectResult s x y dlt).H = s.H := rfl

@[simp] lemma rejectResult_energy : (rejectResult s x y dlt).energy = s.energy := rfl

@[simp] lemma rejectResult_magnetization :
    (rejectResult s x y dlt).magnetization = s.magnetization := rfl

end Projections

/-- Writing back the old value undoes the tentative write: the rejected-move
state is the original state. -/
lemma rejectResult_eq (s : ZnState) (x y dlt : ℤ) : rejectResult s x y dlt = s := by
  have hl : setCell (setCell s.lattice x y (new_spin s x y dlt)) x y (old_spin s x y) =
      s.lattice := by
    funext a b
    by_cases h : a = x ∧ b = y
    · obtain ⟨ha, hb⟩ := h
      subst ha; subst hb
      simp [setCell, old_spin]
    · simp [setCell, h]
  cases s with
  | mk L n T H lattice energy magnetization =>
      simp only [rejectResult, proposedState] at *
      simp [hl]

lemma mem_grid {L : ℕ} {p : ℤ × ℤ} :
    p ∈ grid L ↔ 0 ≤ p.1 ∧ p.1 < L ∧ 0 ≤ p.2 ∧ p.2 < L := by
  obtain ⟨a, b⟩ := p
  simp only [grid, Finset.mem_map, Finset.mem_product, Finset.mem_range,
    Function.Embedding.coe_prodMap, natToInt, Function.Embedding.coeFn_mk, Prod.map,
    Prod.mk.injEq, Prod.exists]
  constructor
  · rintro ⟨m, k, ⟨hm, hk⟩, rfl, rfl⟩
    omega
  · rintro ⟨h1, h2, h3, h4⟩
    exact ⟨a.toNat, b.toNat, ⟨by omega, by omega⟩, by omega, by omega⟩

lemma grid_pos {L : ℕ} {p : ℤ × ℤ} (hp : p ∈ grid L) : 0 < L := by
  have := mem_grid.mp hp
  omega

/-- Bridge between the double range(L) loops of the source and summation over
the grid of index pairs. -/
lemma sum_grid {M : Type} [AddCommMonoid M] (L : ℕ) (g : ℤ → ℤ → M) :
    ∑ p in grid L, g p.1 p.2 =
      ∑ x in Finset.range L, ∑ y in Finset.range L, g (x : ℤ) (y : ℤ) := by
  rw [grid, Finset.sum_map, Finset.sum_product]
  simp [natToInt, Prod.map]

@[simp] lemma setCell_same (f : ℤ → ℤ → ℤ) (x y v : ℤ) : setCell f x y v x y = v := by
  simp [setCell]

lemma setCell_ne (f : ℤ → ℤ → ℤ) (x y v : ℤ) {a b : ℤ} (h : ¬(a = x ∧ b = y)) :
    setCell f x y v a b = f a b := by
  simp [setCell, h]

lemma eq1_comm (u v : ℤ) : eq1 u v = eq1 v u := by
  simp [eq1, eq_comm]

@[simp] lemma dinv_dinv (d : Fin 4) : dinv (dinv d) = d := by
  fin_cases d <;> rfl

lemma emod_nonneg_lt {L : ℕ} (hL : 0 < L) (a : ℤ) : 0 ≤ a % L ∧ a % L < L := by
  have h0 : ((L : ℤ)) ≠ 0 := by exact_mod_cast hL.ne'
  have h1 : (0 : ℤ) < L := by exact_mod_cast hL
  exact ⟨Int.emod_nonneg a h0, Int.emod_lt_of_pos a h1⟩

lemma emod_shift (L c a : ℤ) : (a % L + c) % L = (a + c) % L := by
  conv_rhs => rw [Int.add_emod]
  rw [Int.add_emod (a % L) c, Int.emod_emod_of_dvd _ dvd_rfl]

lemma nbr_mem_grid {L : ℕ} {p : ℤ × ℤ} (hp : p ∈ grid L) (d : Fin 4) :
    nbr L p d ∈ grid L := by
  obtain ⟨h1, h2, h3, h4⟩ := mem_grid.mp hp
  have hL : 0 < L := by omega
  fin_cases d <;>
    · rw [mem_grid]
      refine ⟨?_, ?_, ?_, ?_⟩ <;>
        first
          | exact (emod_nonneg_lt hL _).1
          | exact (emod_nonneg_lt hL _).2
          | assumption

lemma nbr_dinv {L : ℕ} {p : ℤ × ℤ} (hp : p ∈ grid L) (d : Fin 4) :
    nbr L (nbr L p d) (dinv d) = p := by
  obtain ⟨h1, h2, h3, h4⟩ := mem_grid.mp hp
  have e1 : ((p.1 + 1) % L - 1) % L = p.1 := by
    rw [sub_eq_add_neg, emod_shift, ← sub_eq_add_neg, add_sub_cancel_right,
      Int.emod_eq_of_lt h1 h2]
  have e2 : ((p.1 - 1) % L + 1) % L = p.1 := by
    rw [emod_shift, sub_add_cancel, Int.emod_eq_of_lt h1 h2]
  have e3 : ((p.2 + 1) % L - 1) % L = p.2 := by
    rw [sub_eq_add_neg, emod_shift, ← sub_eq_add_neg, add_sub_cancel_right,
      Int.emod_eq_of_lt h3 h4]
  have e4 : ((p.2 - 1) % L + 1) % L = p.2 := by
    rw [emod_shift, sub_add_cancel, Int.emod_eq_of_lt h3 h4]
  fin_cases d <;>
    simp only [nbr, dinv] <;>
    · rw [Prod.ext_iff]
      simp_all

@[simp] lemma nbr_zero (L : ℕ) (p : ℤ × ℤ) : nbr L p 0 = ((p.1 + 1) % L, p.2) := rfl

@[simp] lemma nbr_one (L : ℕ) (p : ℤ × ℤ) : nbr L p 1 = ((p.1 - 1) % L, p.2) := rfl

@[simp] lemma nbr_two (L : ℕ) (p : ℤ × ℤ) : nbr L p 2 = (p.1, (p.2 + 1) % L) := rfl

@[simp] lemma nbr_three (L : ℕ) (p : ℤ × ℤ) : nbr L p 3 = (p.1, (p.2 - 1) % L) := rfl

lemma calculate_energy_decomp (s : ZnState) (x y : ℤ) :
    calculate_energy s x y = -(nbrAgree s.L s.lattice (x, y)) + fld s.H (s.lattice x y) := by
  rw [calculate_energy, nbrAgree, fld]
  simp only [nbrList, List.map_cons, List.map_nil, List.sum_cons, List.sum_nil,
    Fin.sum_univ_four, nbr_zero, nbr_one, nbr_two, nbr_three, eq1]
  ring

lemma nbrAgree_eq_sum_bondTerm (L : ℕ) (f : ℤ → ℤ → ℤ) (p : ℤ × ℤ) :
    nbrAgree L f p = ∑ d : Fin 4, bondTerm L f (p, d) := rfl

/-- The site sum of calculate_energy splits into the (negated) directed-bond
count plus the sum of the per-cell field terms. -/
lemma sum_energy (s : ZnState) :
    ∑ p in grid s.L, calculate_energy s p.1 p.2 =
      -(bondSum s.L s.lattice) + ∑ p in grid s.L, fld s.H (s.lattice p.1 p.2) := by
  have h1 : ∀ p ∈ grid s.L, calculate_energy s p.1 p.2 =
      -(nbrAgree s.L s.lattice p) + fld s.H (s.lattice p.1 p.2) := by
    intro p _
    exact calculate_energy_decomp s p.1 p.2
  rw [Finset.sum_congr rfl h1, Finset.sum_add_distrib, Finset.sum_neg_distrib]
  rw [bondSum, Finset.sum_product]
  rfl

/-- Updating one in-grid cell shifts any per-cell grid sum by the change at
that cell. -/
lemma sum_grid_setCell {M : Type} [AddCommGroup M] (g : ℤ → M) {L : ℕ} {a b : ℤ}
    (hab : (a, b) ∈ grid L) (f : ℤ → ℤ → ℤ) (v : ℤ) :
    ∑ p in grid L, g (setCell f a b v p.1 p.2) =
      (∑ p in grid L, g (f p.1 p.2)) - g (f a b) + g v := by
  rw [Finset.sum_eq_sum_diff_singleton_add hab fun p => g (setCell f a b v p.1 p.2),
    Finset.sum_eq_sum_diff_singleton_add hab fun p => g (f p.1 p.2)]
  have hd : ∀ p ∈ grid L \ {(a, b)}, g (setCell f a b v p.1 p.2) = g (f p.1 p.2) := by
    intro p hp
    rw [Finset.mem_sdiff, Finset.mem_singleton] at hp
    rw [setCell_ne]
    rintro ⟨h1, h2⟩
    exact hp.2 (Prod.ext h1 h2)
  rw [Finset.sum_congr rfl hd]
  simp only [setCell_same]
  abel

lemma setCell_off {f : ℤ → ℤ → ℤ} {a b v : ℤ} {p : ℤ × ℤ} (h : p ≠ (a, b)) :
    setCell f a b v p.1 p.2 = f p.1 p.2 := by
  rw [setCell_ne]
  rintro ⟨h1, h2⟩
  exact h (Prod.ext h1 h2)

/-- The key combinatorial fact behind the consistency of the incremental
energy update: rewriting one in-grid cell changes the directed-bond count by
exactly twice the change of the local neighbor-agreement count at that cell
(each undirected bond incident to the cell carries two directed bonds, and a
self-neighboring bond, possible when L is 1 or 2, contributes the constant 1
both before and after). -/
lemma bondSum_setCell {L : ℕ} {f : ℤ → ℤ → ℤ} {a b v : ℤ} (hab : (a, b) ∈ grid L) :
    bondSum L (setCell f a b v) =
      bondSum L f + 2 * (nbrAgree L (setCell f a b v) (a, b) - nbrAgree L f (a, b)) := by
  have hsub : bondSum L (setCell f a b v) - bondSum L f =
      ∑ pd in grid L ×ˢ (Finset.univ : Finset (Fin 4)),
        (bondTerm L (setCell f a b v) pd - bondTerm L f pd) := by
    rw [bondSum, bondSum, ← Finset.sum_sub_distrib]
  -- abbreviations
  have hmemS : ∀ pd : (ℤ × ℤ) × Fin 4,
      pd ∈ grid L ×ˢ (Finset.univ : Finset (Fin 4)) ↔ pd.1 ∈ grid L := by
    intro pd
    simp [Finset.mem_product]
  -- terms away from the updated cell vanish
  have hzero : ∀ pd : (ℤ × ℤ) × Fin 4, ¬pd.1 = (a, b) → ¬nbr L pd.1 pd.2 = (a, b) →
      bondTerm L (setCell f a b v) pd - bondTerm L f pd = 0 := by
    intro pd h1 h2
    rw [bondTerm, bondTerm, setCell_off h1, setCell_off h2, sub_self]
  -- split off the terms whose source cell is (a, b)
  have hsplit1 : ∑ pd in grid L ×ˢ (Finset.univ : Finset (Fin 4)),
      (bondTerm L (setCell f a b v) pd - bondTerm L f pd) =
      (∑ pd in (grid L ×ˢ (Finset.univ : Finset (Fin 4))).filter
          (fun pd => pd.1 = (a, b)),
        (bondTerm L (setCell f a b v) pd - bondTerm L f pd)) +
      ∑ pd in (grid L ×ˢ (Finset.univ : Finset (Fin 4))).filter
          (fun pd => ¬pd.1 = (a, b)),
        (bondTerm L (setCell f a b v) pd - bondTerm L f pd) :=
    (Finset.sum_filter_add_sum_filter_not _ _ _).symm
  -- among the rest, only terms pointing at (a, b) survive
  have hsplit2 : ∑ pd in (grid L ×ˢ (Finset.univ : Finset (Fin 4))).filter
      (fun pd => ¬pd.1 = (a, b)),
      (bondTerm L (setCell f a b v) pd - bondTerm L f pd) =
      ∑ pd in ((grid L ×ˢ (Finset.univ : Finset (Fin 4))).filter
          (fun pd => ¬pd.1 = (a, b))).filter (fun pd => nbr L pd.1 pd.2 = (a, b)),
        (bondTerm L (setCell f a b v) pd - bondTerm L f pd) := by
    refine (Finset.sum_filter_of_ne ?_).symm
    intro pd hpd hne
    rw [Finset.mem_filter] at hpd
    by_contra hnb
    exact hne (hzero pd hpd.2 hnb)
  -- the incoming-bond terms biject with the outgoing non-self-bond terms
  have hswap : ∑ pd in ((grid L ×ˢ (Finset.univ : Finset (Fin 4))).filter
      (fun pd => ¬pd.1 = (a, b))).filter (fun pd => nbr L pd.1 pd.2 = (a, b)),
      (bondTerm L (setCell f a b v) pd - bondTerm L f pd) =
      ∑ pd in ((grid L ×ˢ (Finset.univ : Finset (Fin 4))).filter
          (fun pd => pd.1 = (a, b))).filter (fun pd => ¬nbr L pd.1 pd.2 = (a, b)),
        (bondTerm L (setCell f a b v) pd - bondTerm L f pd) := by
    refine Finset.sum_nbij' (fun pd => (nbr L pd.1 pd.2, dinv pd.2))
      (fun pd => (nbr L pd.1 pd.2, dinv pd.2)) ?_ ?_ ?_ ?_ ?_
    · rintro ⟨p, d⟩ hpd
      simp only [Finset.mem_filter, hmemS] at hpd ⊢
      obtain ⟨⟨hS, hfst⟩, hnb⟩ := hpd
      refine ⟨⟨by rw [hnb]; exact hab, hnb⟩, ?_⟩
      rw [nbr_dinv hS]
      exact hfst
    · rintro ⟨p, d⟩ hpd
      simp only [Finset.mem_filter, hmemS] at hpd ⊢
      obtain ⟨⟨hS, hfst⟩, hnb⟩ := hpd
      subst hfst
      exact ⟨⟨nbr_mem_grid hab d, hnb⟩, nbr_dinv hab d⟩
    · rintro ⟨p, d⟩ hpd
      simp only [Finset.mem_filter, hmemS] at hpd
      obtain ⟨⟨hS, hfst⟩, hnb⟩ := hpd
      dsimp only
      rw [nbr_dinv hS, dinv_dinv]
    · rintro ⟨p, d⟩ hpd
      simp only [Finset.mem_filter, hmemS] at hpd
      obtain ⟨⟨hS, hfst⟩, hnb⟩ := hpd
      dsimp only
      subst hfst
      rw [nbr_dinv hab, dinv_dinv]
    · rintro ⟨p, d⟩ hpd
      simp only [Finset.mem_filter, hmemS] at hpd
      obtain ⟨⟨hS, hfst⟩, hnb⟩ := hpd
      dsimp only
      rw [bondTerm, bondTerm, bondTerm, bondTerm]
      dsimp only
      rw [nbr_dinv hS, hnb]
      dsimp only
      rw [eq1_comm (setCell f a b v p.1 p.2), eq1_comm (f p.1 p.2)]
  -- the self-bond terms at (a, b) vanish
  have hself : ∑ pd in ((grid L ×ˢ (Finset.univ : Finset (Fin 4))).filter
      (fun pd => pd.1 = (a, b))).filter (fun pd => nbr L pd.1 pd.2 = (a, b)),
      (bondTerm L (setCell f a b v) pd - bondTerm L f pd) = 0 := by
    refine Finset.sum_eq_zero ?_
    intro pd hpd
    rw [Finset.mem_filter, Finset.mem_filter] at hpd
    obtain ⟨⟨_, hfst⟩, hnb⟩ := hpd
    rw [bondTerm, bondTerm, hnb, hfst]
    simp [eq1]
  -- splitting the source-at-(a, b) terms by self-bonds
  have hsplit3 : ∑ pd in (grid L ×ˢ (Finset.univ : Finset (Fin 4))).filter
      (fun pd => pd.1 = (a, b)),
      (bondTerm L (setCell f a b v) pd - bondTerm L f pd) =
      (∑ pd in ((grid L ×ˢ (Finset.univ : Finset (Fin 4))).filter
          (fun pd => pd.1 = (a, b))).filter (fun pd => nbr L pd.1 pd.2 = (a, b)),
        (bondTerm L (setCell f a b v) pd - bondTerm L f pd)) +
      ∑ pd in ((grid L ×ˢ (Finset.univ : Finset (Fin 4))).filter
          (fun pd => pd.1 = (a, b))).filter (fun pd => ¬nbr L pd.1 pd.2 = (a, b)),
        (bondTerm L (setCell f a b v) pd - bondTerm L f pd) :=
    (Finset.sum_filter_add_sum_filter_not _ _ _).symm
  -- the source-at-(a, b) terms are the local neighbor-agreement difference
  have hT1 : ∑ pd in (grid L ×ˢ (Finset.univ : Finset (Fin 4))).filter
      (fun pd => pd.1 = (a, b)),
      (bondTerm L (setCell f a b v) pd - bondTerm L f pd) =
      nbrAgree L (setCell f a b v) (a, b) - nbrAgree L f (a, b) := by
    have hset : (grid L ×ˢ (Finset.univ : Finset (Fin 4))).filter
        (fun pd => pd.1 = (a, b)) = {(a, b)} ×ˢ (Finset.univ : Finset (Fin 4)) := by
      refine Finset.ext fun pd => ?_
      rw [Finset.mem_filter, hmemS, Finset.mem_product, Finset.mem_singleton]
      constructor
      · rintro ⟨_, h⟩; exact ⟨h, Finset.mem_univ _⟩
      · rintro ⟨h, _⟩; exact ⟨by rw [h]; exact hab, h⟩
    rw [hset, Finset.sum_product, Finset.sum_singleton, Finset.sum_sub_distrib,
      nbrAgree_eq_sum_bondTerm, nbrAgree_eq_sum_bondTerm]
  linarith [hsub, hsplit1, hsplit2, hswap, hself, hsplit3, hT1]

lemma calculate_total_energy_grid (s : ZnState) :
    calculate_total_energy s = (∑ p in grid s.L, calculate_energy s p.1 p.2) / 2 := by
  rw [calculate_total_energy, sum_grid]

lemma calculate_magnetization_grid (s : ZnState) :
    calculate_magnetization s =
      ∑ p in grid s.L, (if s.lattice p.1 p.2 = 1 then 1 else -1) :=
  (sum_grid s.L fun a b => if s.lattice a b = 1 then (1 : ℤ) else -1).symm

lemma fld_zero (v : ℤ) : fld 0 v = 0 := by
  simp [fld]

/-- Recomputed magnetization after an accepted move changes by exactly the
increment the source adds to the running scalar. -/
lemma accept_mag (s : ZnState) (x y dlt : ℤ) (hg : (x, y) ∈ grid s.L) :
    calculate_magnetization (acceptResult s x y dlt) =
      calculate_magnetization s +
        ((if new_spin s x y dlt = 1 then 1 else -1) -
          (if old_spin s x y = 1 then 1 else -1)) := by
  rw [calculate_magnetization_grid, calculate_magnetization_grid]
  simp only [acceptResult_L, acceptResult_lattice]
  rw [sum_grid_setCell (fun v => if v = 1 then (1 : ℤ) else -1) hg]
  rw [old_spin]
  ring

/-- With no external field, recomputed total energy after an accepted move
changes by exactly delta_energy (for H different from 0 this fails: the
field part of delta_energy enters the halved total at half weight). -/
lemma accept_energy (s : ZnState) (x y dlt : ℤ) (hg : (x, y) ∈ grid s.L) (hH : s.H = 0) :
    calculate_total_energy (acceptResult s x y dlt) =
      calculate_total_energy s + delta_energy s x y dlt := by
  have hsum2 := sum_energy (acceptResult s x y dlt)
  simp only [acceptResult_L, acceptResult_H, acceptResult_lattice, hH, fld_zero,
    Finset.sum_const_zero, add_zero] at hsum2
  have hsum1 := sum_energy s
  simp only [hH, fld_zero, Finset.sum_const_zero, add_zero] at hsum1
  have hd2 := calculate_energy_decomp (proposedState s x y dlt) x y
  simp only [proposedState_L, proposedState_H, proposedState_lattice, hH, fld_zero,
    add_zero] at hd2
  have hd1 := calculate_energy_decomp s x y
  simp only [hH, fld_zero, add_zero] at hd1
  have hbond := bondSum_setCell (f := s.lattice) (v := new_spin s x y dlt) hg
  rw [calculate_total_energy_grid, calculate_total_energy_grid]
  simp only [acceptResult_L]
  rw [hsum2, hsum1, delta_energy, hd2, hd1, hbond]
  ring

lemma trial_L (s : ZnState) (t : Trial) : (metropolis_trial s t).L = s.L := by
  rw [metropolis_trial]
  split <;> rfl

lemma trial_n (s : ZnState) (t : Trial) : (metropolis_trial s t).n = s.n := by
  rw [metropolis_trial]
  split <;> rfl

lemma trial_T (s : ZnState) (t : Trial) : (metropolis_trial s t).T = s.T := by
  rw [metropolis_trial]
  split <;> rfl

lemma trial_H (s : ZnState) (t : Trial) : (metropolis_trial s t).H = s.H := by
  rw [metropolis_trial]
  split <;> rfl

lemma step_L (s : ZnState) (ts : List Trial) : (metropolis_step s ts).L = s.L := by
  induction ts generalizing s with
  | nil => rfl
  | cons t ts ih =>
      rw [metropolis_step, List.foldl_cons]
      exact (ih (metropolis_trial s t)).trans (trial_L s t)

lemma step_n (s : ZnState) (ts : List Trial) : (metropolis_step s ts).n = s.n := by
  induction ts generalizing s with
  | nil => rfl
  | cons t ts ih =>
      rw [metropolis_step, List.foldl_cons]
      exact (ih (metropolis_trial s t)).trans (trial_n s t)

lemma step_T (s : ZnState) (ts : List Trial) : (metropolis_step s ts).T = s.T := by
  induction ts generalizing s with
  | nil => rfl
  | cons t ts ih =>
      rw [metropolis_step, List.foldl_cons]
      exact (ih (metropolis_trial s t)).trans (trial_T s t)

lemma step_H (s : ZnState) (ts : List Trial) : (metropolis_step s ts).H = s.H := by
  induction ts generalizing s with
  | nil => rfl
  | cons t ts ih =>
      rw [metropolis_step, List.foldl_cons]
      exact (ih (metropolis_trial s t)).trans (trial_H s t)

/-- One trial preserves consistency of the running magnetization with full
recomputation, for any field H. -/
lemma trial_mag_consistent (s : ZnState) (t : Trial) (hg : (t.x, t.y) ∈ grid s.L)
    (h : s.magnetization = calculate_magnetization s) :
    (metropolis_trial s t).magnetization = calculate_magnetization (metropolis_trial s t) := by
  rw [metropolis_trial]
  split
  · rw [rejectResult_eq]
    exact h
  · rw [acceptResult_magnetization, accept_mag s t.x t.y t.dlt hg, h]

/-- One trial preserves consistency of the running energy with full
recomputation when H = 0. -/
lemma trial_energy_consistent (s : ZnState) (t : Trial) (hg : (t.x, t.y) ∈ grid s.L)
    (hH : s.H = 0) (h : s.energy = calculate_total_energy s) :
    (metropolis_trial s t).energy = calculate_total_energy (metropolis_trial s t) := by
  rw [metropolis_trial]
  split
  · rw [rejectResult_eq]
    exact h
  · rw [acceptResult_energy, accept_energy s t.x t.y t.dlt hg hH, h]

lemma step_mag_consistent (s : ZnState) (ts : List Trial)
    (hg : ∀ t ∈ ts, (t.x, t.y) ∈ grid s.L)
    (h : s.magnetization = calculate_magnetization s) :
    (metropolis_step s ts).magnetization = calculate_magnetization (metropolis_step s ts) := by
  induction ts generalizing s with
  | nil => exact h
  | cons t ts ih =>
      rw [metropolis_step, List.foldl_cons]
      refine ih (metropolis_trial s t) ?_ ?_
      · intro u hu
        rw [trial_L]
        exact hg u (List.mem_cons_of_mem t hu)
      · exact trial_mag_consistent s t (hg t (List.mem_cons_self t ts)) h

lemma step_energy_consistent (s : ZnState) (ts : List Trial)
    (hg : ∀ t ∈ ts, (t.x, t.y) ∈ grid s.L) (hH : s.H = 0)
    (h : s.energy = calculate_total_energy s) :
    (metropolis_step s ts).energy = calculate_total_energy (metropolis_step s ts) := by
  induction ts generalizing s with
  | nil => exact h
  | cons t ts ih =>
      rw [metropolis_step, List.foldl_cons]
      refine ih (metropolis_trial s t) ?_ ?_ ?_
      · intro u hu
        rw [trial_L]
        exact hg u (List.mem_cons_of_mem t hu)
      · rw [trial_H]
        exact hH
      · exact trial_energy_consistent s t (hg t (List.mem_cons_self t ts)) hH h

/-- C2 counterexample: on the L = 2, n = 2, H = 0 checkerboard lattice
[[0, 1], [1, 0]], the claimed pair of values (total energy +4, magnetization
0) is wrong: calculate_total_energy returns 0, not +4 (every neighbor pair is
anti-aligned and contributes 0, so the halved site sum is 0). -/
theorem C2_counterexample :
    ¬(calculate_total_energy sCheck = 4 ∧ calculate_magnetization sCheck = 0) := by
  intro h
  have he := h.1
  rw [calculate_total_energy] at he
  norm_num [sCheck, calculate_energy, nbrList, checkerboard,
    Finset.sum_range_succ, Finset.sum_range_zero] at he

/-- C2 amended: on the L = 2, n = 2, H = 0 checkerboard lattice
[[0, 1], [1, 0]], calculate_total_energy returns 0 and
calculate_magnetization returns 0. -/
theorem C2_amended :
    calculate_total_energy sCheck = 0 ∧ calculate_magnetization sCheck = 0 := by
  constructor
  · rw [calculate_total_energy]
    norm_num [sCheck, calculate_energy, nbrList, checkerboard,
      Finset.sum_range_succ, Finset.sum_range_zero]
  · decide

/-- C3 counterexample: at L = 0, n = 2 (an input with L <= 0, where the claim
demands a fatal InvalidConfiguration error with no state created), the
constructor raises nothing and returns a fully initialized state. -/
theorem C3_counterexample :
    znModel_init 0 2 1 0 (fun _ _ => 0) = Except.ok (mkInitial 0 2 1 0 (fun _ _ => 0)) := rfl

/-- C3 amended: the constructor performs no configuration validation.
Construction succeeds (returning a fully initialized state) exactly when
0 <= L and 1 <= n, so L = 0 and n = 1 are accepted; the only constructor
failure is the ValueError coming from np.random.randint when L < 0 or n < 1,
not an InvalidConfiguration. -/
theorem C3_amended (L1 n1 L2 n2 : ℤ) (T H : ℚ) (r : ℤ → ℤ → ℤ)
    (h1 : 0 ≤ L1 ∧ 1 ≤ n1) (h2 : L2 < 0 ∨ n2 < 1) :
    znModel_init L1 n1 T H r = Except.ok (mkInitial L1.toNat n1 T H r) ∧
      znModel_init L2 n2 T H r = Except.error "ValueError" := by
  constructor
  · rw [znModel_init, if_neg]
    push_neg
    omega
  · rw [znModel_init, if_pos]
    omega

/-- C3 amended, witness: L = 0, n = 2 constructs successfully and L = -1
fails with the numpy ValueError. -/
theorem C3_amended_witness :
    znModel_init 0 2 1 0 (fun _ _ => (0 : ℤ)) =
        Except.ok (mkInitial (0 : ℤ).toNat 2 1 0 (fun _ _ => (0 : ℤ))) ∧
      znModel_init (-1) 2 1 0 (fun _ _ => (0 : ℤ)) = Except.error "ValueError" :=
  C3_amended 0 2 (-1) 2 1 0 (fun _ _ => (0 : ℤ)) (by decide) (by decide)

/-- C5: for every configuration and every site (x, y), calculate_energy(x, y)
is the sum over the four toroidal neighbors ((x+1) mod L, y), ((x-1) mod L, y),
(x, (y+1) mod L), (x, (y-1) mod L) of -1 if the neighbor holds the same state
and 0 otherwise, plus the field term -H if the cell holds state 1 and +H
otherwise; if L = 3 the neighbor list at (0, 0) is exactly
[(1, 0), (2, 0), (0, 1), (0, 2)]; and calculate_total_energy is half the site
sum of calculate_energy. -/
theorem C5_local_energy (s : ZnState) (x y : ℤ) :
    (calculate_energy s x y =
        ((if s.lattice x y = s.lattice ((x + 1) % (s.L : ℤ)) y then (-1 : ℚ) else 0) +
            (if s.lattice x y = s.lattice ((x - 1) % (s.L : ℤ)) y then (-1 : ℚ) else 0) +
            (if s.lattice x y = s.lattice x ((y + 1) % (s.L : ℤ)) then (-1 : ℚ) else 0) +
            (if s.lattice x y = s.lattice x ((y - 1) % (s.L : ℤ)) then (-1 : ℚ) else 0)) +
          (if s.lattice x y = 1 then -s.H else s.H)) ∧
      (s.L = 3 → nbrList s.L 0 0 = [(1, 0), (2, 0), (0, 1), (0, 2)]) ∧
      calculate_total_energy s =
        (∑ a in Finset.range s.L, ∑ b in Finset.range s.L, calculate_energy s a b) / 2 := by
  refine ⟨?_, ?_, rfl⟩
  · rw [calculate_energy]
    simp only [nbrList, List.map_cons, List.map_nil, List.sum_cons, List.sum_nil]
    split_ifs <;> ring
  · intro h3
    rw [h3]
    decide

/-- C5, witness: the L = 3 all-zero configuration at site (0, 0). -/
theorem C5_witness : nbrList sThree.L 0 0 = [(1, 0), (2, 0), (0, 1), (0, 2)] :=
  (C5_local_energy sThree 0 0).2.1 rfl

/-- C7: a rejected trial leaves the lattice cell at (x, y) with its pre-trial
value, modifies no other cell, and leaves the running energy and
magnetization scalars exactly unchanged. -/
theorem C7_rejection_frame (s : ZnState) (t : Trial)
    (hrej : 0 < delta_energy s t.x t.y t.dlt ∧ t.rejBit = true) :
    (metropolis_trial s t).lattice t.x t.y = s.lattice t.x t.y ∧
      (∀ a b : ℤ, (metropolis_trial s t).lattice a b = s.lattice a b) ∧
      (metropolis_trial s t).energy = s.energy ∧
      (metropolis_trial s t).magnetization = s.magnetization := by
  rw [metropolis_trial, if_pos hrej, rejectResult_eq]
  exact ⟨rfl, fun a b => rfl, rfl, rfl⟩

/-- C7, witness: the costly proposal in the all-zero L = 2 configuration,
rejected by the acceptance draw, changes nothing. -/
theorem C7_witness :
    (metropolis_trial sRej rejTrial).lattice 0 0 = sRej.lattice 0 0 ∧
      (metropolis_trial sRej rejTrial).energy = sRej.energy ∧
      (metropolis_trial sRej rejTrial).magnetization = sRej.magnetization := by
  have hpos : 0 < delta_energy sRej rejTrial.x rejTrial.y rejTrial.dlt := by
    have hdE : delta_energy sRej rejTrial.x rejTrial.y rejTrial.dlt = 4 := by
      rw [delta_energy, calculate_energy, calculate_energy]
      norm_num [sRej, zeroLat, nbrList, new_spin, setCell, rejTrial]
    rw [hdE]
    norm_num
  have h := C7_rejection_frame sRej rejTrial ⟨hpos, rfl⟩
  exact ⟨h.1, h.2.2.1, h.2.2.2⟩

/-- C8: with n larger than 1, an in-range old state and a proposal offset
drawn from 1, ..., n-1, the proposal (old_spin + dlt) mod n lies in [0, n)
and differs from old_spin. -/
theorem C8_proposal (s : ZnState) (t : Trial) (hn : 2 ≤ s.n)
    (hold : 0 ≤ old_spin s t.x t.y ∧ old_spin s t.x t.y < s.n)
    (hdlt : 1 ≤ t.dlt ∧ t.dlt < s.n) :
    0 ≤ new_spin s t.x t.y t.dlt ∧ new_spin s t.x t.y t.dlt < s.n ∧
      new_spin s t.x t.y t.dlt ≠ old_spin s t.x t.y := by
  simp only [new_spin, old_spin] at hold ⊢
  obtain ⟨h1, h2⟩ := hold
  obtain ⟨h3, h4⟩ := hdlt
  have hn0 : (0 : ℤ) < s.n := by omega
  refine ⟨Int.emod_nonneg _ (by omega), Int.emod_lt_of_pos _ hn0, ?_⟩
  intro heq
  have h5 : s.lattice t.x t.y % s.n = s.lattice t.x t.y := Int.emod_eq_of_lt h1 h2
  have heq2 : (s.lattice t.x t.y + t.dlt) % s.n = s.lattice t.x t.y % s.n := by
    rw [h5]
    exact heq
  have h6 := Int.emod_eq_emod_iff_emod_sub_eq_zero.mp heq2
  rw [show s.lattice t.x t.y + t.dlt - s.lattice t.x t.y = t.dlt by ring] at h6
  rw [Int.emod_eq_of_lt (by omega) h4] at h6
  omega

/-- C8, witness: in the all-zero L = 2, n = 2 configuration with offset 1,
the proposal is 1: in range and distinct from the old state 0. -/
theorem C8_witness :
    0 ≤ new_spin sRej rejTrial.x rejTrial.y rejTrial.dlt ∧
      new_spin sRej rejTrial.x rejTrial.y rejTrial.dlt < sRej.n ∧
      new_spin sRej rejTrial.x rejTrial.y rejTrial.dlt ≠ old_spin sRej rejTrial.x rejTrial.y :=
  C8_proposal sRej rejTrial (by decide) ⟨by decide, by decide⟩ ⟨by decide, by decide⟩

/-- C9: with n at least 2, cells constructed by randint(0, n) lie in [0, n)
and every trial (accepted or rejected) keeps all cells in [0, n); moreover
every neighbor index read by calculate_energy at an in-grid site is reduced
mod L back into the grid, and the written cell is the drawn in-grid site, so
no lattice access leaves the L x L bounds. -/
theorem C9_cell_range (s : ZnState) (t : Trial) (L0 : ℕ) (n0 : ℤ) (T0 H0 : ℚ)
    (r : ℤ → ℤ → ℤ)
    (hr : ∀ a b : ℤ, 0 ≤ r a b ∧ r a b < n0)
    (hn : 2 ≤ s.n) (hg : (t.x, t.y) ∈ grid s.L) (hc : cellsInRange s) :
    cellsInRange (mkInitial L0 n0 T0 H0 r) ∧
      cellsInRange (metropolis_trial s t) ∧
      (∀ p ∈ nbrList s.L t.x t.y, p ∈ grid s.L) := by
  refine ⟨?_, ?_, ?_⟩
  · intro p _
    simp only [mkInitial_lattice, mkInitial_n]
    exact hr p.1 p.2
  · rw [metropolis_trial]
    split
    · rw [rejectResult_eq]
      exact hc
    · intro p hp
      simp only [acceptResult_lattice, acceptResult_n, acceptResult_L] at hp ⊢
      by_cases hpe : p.1 = t.x ∧ p.2 = t.y
      · obtain ⟨h1, h2⟩ := hpe
        rw [h1, h2, setCell_same, new_spin]
        have hn0 : (0 : ℤ) < s.n := by omega
        exact ⟨Int.emod_nonneg _ (by omega), Int.emod_lt_of_pos _ hn0⟩
      · rw [setCell_ne _ _ _ _ hpe]
        exact hc p hp
  · intro p hp
    obtain ⟨hx1, hx2, hy1, hy2⟩ := mem_grid.mp hg
    have hL : 0 < s.L := grid_pos hg
    simp only [nbrList, List.mem_cons, List.not_mem_nil, or_false] at hp
    rcases hp with h | h | h | h
    · rw [h, mem_grid]
      exact ⟨(emod_nonneg_lt hL _).1, (emod_nonneg_lt hL _).2, hy1, hy2⟩
    · rw [h, mem_grid]
      exact ⟨(emod_nonneg_lt hL _).1, (emod_nonneg_lt hL _).2, hy1, hy2⟩
    · rw [h, mem_grid]
      exact ⟨hx1, hx2, (emod_nonneg_lt hL _).1, (emod_nonneg_lt hL _).2⟩
    · rw [h, mem_grid]
      exact ⟨hx1, hx2, (emod_nonneg_lt hL _).1, (emod_nonneg_lt hL _).2⟩

/-- C9, witness: the all-zero L = 2, n = 2 configuration and its trial at
(0, 0). -/
theorem C9_witness :
    cellsInRange (mkInitial 2 2 1 0 zeroLat) ∧
      cellsInRange (metropolis_trial sRej rejTrial) ∧
      (∀ p ∈ nbrList sRej.L rejTrial.x rejTrial.y, p ∈ grid sRej.L) :=
  C9_cell_range sRej rejTrial 2 2 1 0 zeroLat
    (fun a b => ⟨le_refl 0, by norm_num [zeroLat]⟩) (by decide) (by decide)
    (fun p _ => ⟨le_refl 0, by norm_num [sRej, zeroLat]⟩)

lemma card_grid (L : ℕ) : (grid L).card = L * L := by
  rw [grid, Finset.card_map, Finset.card_product, Finset.card_range]

/-- The recomputed magnetization counts 2 * (cells at state 1) - L ^ 2. -/
lemma calculate_magnetization_eq (s : ZnState) :
    calculate_magnetization s = 2 * (onesCount s : ℤ) - (s.L : ℤ) ^ 2 := by
  rw [calculate_magnetization_grid, onesCount]
  have h1 : ∀ p ∈ grid s.L, (if s.lattice p.1 p.2 = 1 then (1 : ℤ) else -1) =
      2 * (if s.lattice p.1 p.2 = 1 then (1 : ℤ) else 0) - 1 := by
    intro p _
    split <;> ring
  rw [Finset.sum_congr rfl h1, Finset.sum_sub_distrib, ← Finset.mul_sum,
    Finset.sum_boole, Finset.sum_const, card_grid]
  ring

/-- C10: the running magnetization always equals 2 * (number of state-1
cells) - L ^ 2 (established at construction by recomputation and preserved
by every trial); hence it lies in [-L ^ 2, L ^ 2] with the parity of L ^ 2,
and a single trial changes it by exactly -2, 0 or +2.  The bookkeeping is
exact integer arithmetic. -/
theorem C10_mag_count (s : ZnState) (t : Trial)
    (hg : (t.x, t.y) ∈ grid s.L)
    (hm : s.magnetization = 2 * (onesCount s : ℤ) - (s.L : ℤ) ^ 2) :
    calculate_magnetization s = 2 * (onesCount s : ℤ) - (s.L : ℤ) ^ 2 ∧
      (metropolis_trial s t).magnetization =
        2 * (onesCount (metropolis_trial s t) : ℤ) - ((metropolis_trial s t).L : ℤ) ^ 2 ∧
      (-(s.L : ℤ) ^ 2 ≤ s.magnetization ∧ s.magnetization ≤ (s.L : ℤ) ^ 2 ∧
        s.magnetization % 2 = (s.L : ℤ) ^ 2 % 2) ∧
      ((metropolis_trial s t).magnetization - s.magnetization = -2 ∨
        (metropolis_trial s t).magnetization - s.magnetization = 0 ∨
        (metropolis_trial s t).magnetization - s.magnetization = 2) := by
  have hformula := calculate_magnetization_eq s
  refine ⟨hformula, ?_, ?_, ?_⟩
  · have h2 := trial_mag_consistent s t hg (hm.trans hformula.symm)
    rw [h2, calculate_magnetization_eq]
  · have hones : onesCount s ≤ s.L * s.L :=
      le_of_le_of_eq (Finset.card_filter_le _ _) (card_grid s.L)
    have hcast : ((s.L * s.L : ℕ) : ℤ) = (s.L : ℤ) ^ 2 := by
      push_cast
      ring
    have hk : (onesCount s : ℤ) ≤ (s.L : ℤ) ^ 2 := by
      rw [← hcast]
      exact_mod_cast hones
    have hk0 : (0 : ℤ) ≤ (onesCount s : ℤ) := Int.natCast_nonneg _
    generalize hgen : ((s.L : ℤ)) ^ 2 = m at hm hk ⊢
    omega
  · rw [metropolis_trial]
    split
    · rw [rejectResult_eq]
      right
      left
      ring
    · rw [acceptResult_magnetization]
      split_ifs <;> omega

/-- C10, witness: the L = 1 all-zero configuration (magnetization -1 =
2 * 0 - 1) and its accepted flip to state 1 (magnetization 1 = 2 * 1 - 1,
a change of +2). -/
theorem C10_witness :
    calculate_magnetization sCons = 2 * (onesCount sCons : ℤ) - (sCons.L : ℤ) ^ 2 ∧
      (metropolis_trial sCons driftTrial).magnetization =
        2 * (onesCount (metropolis_trial sCons driftTrial) : ℤ) -
          ((metropolis_trial sCons driftTrial).L : ℤ) ^ 2 ∧
      (-(sCons.L : ℤ) ^ 2 ≤ sCons.magnetization ∧ sCons.magnetization ≤ (sCons.L : ℤ) ^ 2 ∧
        sCons.magnetization % 2 = (sCons.L : ℤ) ^ 2 % 2) ∧
      ((metropolis_trial sCons driftTrial).magnetization - sCons.magnetization = -2 ∨
        (metropolis_trial sCons driftTrial).magnetization - sCons.magnetization = 0 ∨
        (metropolis_trial sCons driftTrial).magnetization - sCons.magnetization = 2) :=
  C10_mag_count sCons driftTrial (by decide) (by decide)

lemma obsUpdate_energy_data (L : ℕ) (T E : ℚ) (M : ℤ) (o : ObsData) :
    (obsUpdate L T E M o).energy_data = o.energy_data ++ [E] := by
  simp only [obsUpdate]
  split <;> rfl

lemma obsUpdate_mag_data (L : ℕ) (T E : ℚ) (M : ℤ) (o : ObsData) :
    (obsUpdate L T E M o).magnetization_data = o.magnetization_data ++ [(M : ℚ)] := by
  simp only [obsUpdate]
  split <;> rfl

lemma runFrame_L (so : ZnState × ObsData) (fi : FrameInput) :
    (runFrame so fi).1.L = so.1.L := by
  simp only [runFrame]
  rw [step_L]

lemma runFrames_L (so : ZnState × ObsData) (fis : List FrameInput) :
    (runFrames so fis).1.L = so.1.L := by
  induction fis generalizing so with
  | nil => rfl
  | cons fi fis ih =>
      rw [runFrames, List.foldl_cons]
      exact ((ih (runFrame so fi)).trans (runFrame_L so fi))

lemma runFrames_energy_len (so : ZnState × ObsData) (fis : List FrameInput) :
    (runFrames so fis).2.energy_data.length = so.2.energy_data.length + fis.length := by
  induction fis generalizing so with
  | nil => rfl
  | cons fi fis ih =>
      rw [runFrames, List.foldl_cons]
      have h1 := ih (runFrame so fi)
      rw [runFrames] at h1
      rw [h1]
      have h2 : (runFrame so fi).2.energy_data.length = so.2.energy_data.length + 1 := by
        simp only [runFrame, obsUpdate_energy_data, List.length_append, List.length_cons,
          List.length_nil]
      rw [h2]
      simp only [List.length_cons]
      omega

/-- C6: starting from empty histories, after exactly one pass no specific
heat or susceptibility is produced (both lists stay empty); after k passes
with k at least 2, the energy history has exactly k entries and the latest
appended specific heat and susceptibility equal the population variance of
the full history divided by L^2 * T^2 (resp. L^2 * T), where T is the
temperature of pass k. -/
theorem C6_observables (s0 : ZnState) (fi1 : FrameInput) (fis : List FrameInput)
    (fil : FrameInput) (hlen : 1 ≤ fis.length) :
    ((runFrames (s0, emptyObs) [fi1]).2.specific_heat_data = [] ∧
      (runFrames (s0, emptyObs) [fi1]).2.susceptibility_data = []) ∧
    ((runFrames (s0, emptyObs) (fis ++ [fil])).2.energy_data.length = fis.length + 1 ∧
      (runFrames (s0, emptyObs) (fis ++ [fil])).2.specific_heat_data.getLast? =
        some (npVar (runFrames (s0, emptyObs) (fis ++ [fil])).2.energy_data /
          ((s0.L : ℚ) ^ 2 * fil.T ^ 2)) ∧
      (runFrames (s0, emptyObs) (fis ++ [fil])).2.susceptibility_data.getLast? =
        some (npVar (runFrames (s0, emptyObs) (fis ++ [fil])).2.magnetization_data /
          ((s0.L : ℚ) ^ 2 * fil.T))) := by
  constructor
  · rw [runFrames, List.foldl_cons, List.foldl_nil]
    simp only [runFrame, obsUpdate, emptyObs]
    norm_num
  · have hsplit : runFrames (s0, emptyObs) (fis ++ [fil]) =
        runFrame (runFrames (s0, emptyObs) fis) fil := by
      rw [runFrames, List.foldl_append, List.foldl_cons, List.foldl_nil]
      rfl
    have hmidlen : (runFrames (s0, emptyObs) fis).2.energy_data.length = fis.length := by
      rw [runFrames_energy_len]
      simp [emptyObs]
    have hmidL : (runFrames (s0, emptyObs) fis).1.L = s0.L := runFrames_L _ _
    have hs1L : (metropolis_step
        { (runFrames (s0, emptyObs) fis).1 with T := fil.T } fil.trials).L = s0.L := by
      rw [step_L]
      exact hmidL
    have hs1T : (metropolis_step
        { (runFrames (s0, emptyObs) fis).1 with T := fil.T } fil.trials).T = fil.T := by
      rw [step_T]
    rw [hsplit]
    simp only [runFrame, obsUpdate]
    rw [if_pos]
    · simp only [hs1L, hs1T]
      refine ⟨?_, ?_, ?_⟩
      · rw [List.length_append, hmidlen]
        rfl
      · rw [List.getLast?_concat]
      · rw [List.getLast?_concat]
    · rw [List.length_append, hmidlen]
      simp only [List.length_cons, List.length_nil]
      omega

/-- C6, witness: two frames from empty histories in the L = 1, n = 2
configuration; the first frame alone produces no derived statistics, and
after the second the latest derived values use the full 2-entry histories. -/
theorem C6_witness :
    ((runFrames (sCons, emptyObs) [obsFrame]).2.specific_heat_data = [] ∧
      (runFrames (sCons, emptyObs) [obsFrame]).2.susceptibility_data = []) ∧
    ((runFrames (sCons, emptyObs) ([obsFrame] ++ [obsFrame])).2.energy_data.length =
        [obsFrame].length + 1 ∧
      (runFrames (sCons, emptyObs) ([obsFrame] ++ [obsFrame])).2.specific_heat_data.getLast? =
        some (npVar (runFrames (sCons, emptyObs) ([obsFrame] ++ [obsFrame])).2.energy_data /
          ((sCons.L : ℚ) ^ 2 * obsFrame.T ^ 2)) ∧
      (runFrames (sCons, emptyObs) ([obsFrame] ++ [obsFrame])).2.susceptibility_data.getLast? =
        some (npVar
            (runFrames (sCons, emptyObs) ([obsFrame] ++ [obsFrame])).2.magnetization_data /
          ((sCons.L : ℚ) ^ 2 * obsFrame.T))) :=
  C6_observables sCons obsFrame [obsFrame] obsFrame (by decide)

/-- C4: for a trial whose rejection bit is the outcome of comparing the
uniform draw u with exp(-delta_energy / T) (the comparison the source
evaluates lazily), the trial accepts unconditionally when delta_energy is
nonpositive (for either value of the draw bit, so no acceptance draw is
needed), and for positive delta_energy it accepts exactly when
u < exp(-delta_energy / T), otherwise reverting the cell to old_spin. -/
theorem C4_acceptance (s : ZnState) (t : Trial) (u : ℝ)
    (hlink : t.rejBit = true ↔
      Real.exp (-(delta_energy s t.x t.y t.dlt : ℝ) / (s.T : ℝ)) ≤ u) :
    (delta_energy s t.x t.y t.dlt ≤ 0 →
      (metropolis_trial s t = acceptResult s t.x t.y t.dlt ∧
        ∀ b : Bool, metropolis_trial s ⟨t.x, t.y, t.dlt, b⟩ = acceptResult s t.x t.y t.dlt)) ∧
    (0 < delta_energy s t.x t.y t.dlt →
      ((u < Real.exp (-(delta_energy s t.x t.y t.dlt : ℝ) / (s.T : ℝ)) →
          metropolis_trial s t = acceptResult s t.x t.y t.dlt) ∧
        (Real.exp (-(delta_energy s t.x t.y t.dlt : ℝ) / (s.T : ℝ)) ≤ u →
          metropolis_trial s t = rejectResult s t.x t.y t.dlt ∧
            (rejectResult s t.x t.y t.dlt).lattice t.x t.y = old_spin s t.x t.y))) := by
  constructor
  · intro h0
    constructor
    · rw [metropolis_trial, if_neg]
      rintro ⟨h1, _⟩
      exact absurd h0 (not_le.mpr h1)
    · intro b
      rw [metropolis_trial, if_neg]
      rintro ⟨h1, _⟩
      exact absurd h0 (not_le.mpr h1)
  · intro hpos
    constructor
    · intro hu
      rw [metropolis_trial, if_neg]
      rintro ⟨_, hbit⟩
      exact absurd (hlink.mp hbit) (not_le.mpr hu)
    · intro hge
      refine ⟨?_, ?_⟩
      · rw [metropolis_trial, if_pos ⟨hpos, hlink.mpr hge⟩]
      · rw [rejectResult_eq]
        rfl

/-- C4, witness: the costly proposal (delta_energy = 4, T = 1) with draw
u = 1, which satisfies exp(-4) <= u, so the trial rejects. -/
theorem C4_witness :
    0 < delta_energy sRej rejTrial.x rejTrial.y rejTrial.dlt ∧
      metropolis_trial sRej rejTrial = rejectResult sRej rejTrial.x rejTrial.y rejTrial.dlt := by
  have hdE : delta_energy sRej rejTrial.x rejTrial.y rejTrial.dlt = 4 := by
    rw [delta_energy, calculate_energy, calculate_energy]
    norm_num [sRej, zeroLat, nbrList, new_spin, setCell, rejTrial]
  have hT : (sRej.T : ℝ) = 1 := by
    norm_num [sRej]
  have hexp : Real.exp (-(delta_energy sRej rejTrial.x rejTrial.y rejTrial.dlt : ℝ) /
      (sRej.T : ℝ)) ≤ (1 : ℝ) := by
    rw [hdE, hT, Real.exp_le_one_iff]
    norm_num
  have hpos : 0 < delta_energy sRej rejTrial.x rejTrial.y rejTrial.dlt := by
    rw [hdE]
    norm_num
  have h := (C4_acceptance sRej rejTrial 1 (iff_of_true rfl hexp)).2 hpos
  exact ⟨hpos, (h.2 hexp).1⟩

end ZnModel

